import Mathlib

/-!
# A verification development for the `search_names` fuzzy name-search pipeline

This file gives a shallow embedding, in Lean, of the core data model and
algorithms of the `search_names` repository:

* the two multi-keyword search engines of `search_names/searchengines.py`
  (`SearchMultipleKeywords`, compiled with `re.I`, and
  `NewSearchMultipleKeywords`, compiled without flags), including
  keyword-dictionary construction, the fuzzy tier table
  (`get_allow_distance`), approximate-match resolution (`find_nearest_key`),
  result-row assembly, fixed-width padding, and the total count;
* the optimized engines of `search_names/optimized_searchengines.py`
  (`_get_edit_distance_threshold`, `_find_nearest_keyword`) and
  `search_names/engines.py` (`OptimizedSearchEngine.__init__` and `search`);
* the chunk scheduler of `search_names/pipeline/optimized_search.py`
  (`_create_file_chunks`) and the modulo row distribution of the worker in
  `search_names/search_names.py`;
* the pattern generator and the pairwise edit-distance deduplicator of
  `search_names/pipeline/step3_preprocess.py` (`preprocess_names`,
  `load_drop_patterns`).

Machine strings are modelled as Lean `String`/`List Char`; the Levenshtein
distance of the `python-Levenshtein` library is embedded as a standard
dynamic-programming definition (`lev`); the word-boundary literal matching
performed by the compiled tolerance-0 regular expressions is embedded by an
explicit scanner (`litFindIter`), with `\w` modelled for ASCII input.
Python dictionaries (which preserve insertion order) are modelled as
association lists.
-/

namespace SearchNames

/-! ## Levenshtein edit distance

Embeds `Levenshtein.distance` from the `python-Levenshtein` package (unit
costs for insertion, deletion and substitution), as consumed by
`find_nearest_key`, `_find_nearest_keyword` and the deduplication pass.
The implementation is the standard row-by-row dynamic programming scheme,
written with structural recursion so that concrete instances evaluate
inside the kernel. -/

/-- One DP row update: given the previous row (tail `os`), the diagonal
value `diag` and the value `left` just computed to the left, produce the
rest of the new row for text `ys` against the new character `x`. -/
def levRowAux (x : Char) : List Char → List Nat → Nat → Nat → List Nat
  | y :: ys, o :: os, diag, left =>
      let v := min (diag + (if x = y then 0 else 1)) (min (o + 1) (left + 1))
      v :: levRowAux x ys os o v
  | _, _, _, _ => []

/-- All DP rows folded over the first word; the initial row is
`[0, 1, …, |ys|]`. -/
def levFold (xs ys : List Char) : List Nat :=
  xs.foldl
    (fun row x =>
      match row with
      | r0 :: rest => (r0 + 1) :: levRowAux x ys rest r0 (r0 + 1)
      | [] => [])
    (List.range (ys.length + 1))

/-- Levenshtein edit distance between two strings (unit costs). -/
def lev (a b : String) : Nat :=
  ((levFold a.data b.data).getLast?).getD 0

example : lev "john smith" "john smith" = 0 := by decide
example : lev "john smith" "jon smith" = 1 := by decide
example : lev "ab" "dc" = 2 := by decide
example : lev "aaaaa" "aaabc" = 2 := by decide
example : lev "aaabb" "aaabc" = 1 := by decide
example : lev "" "abc" = 3 := by decide
example : lev "kitten" "sitting" = 3 := by decide

/-! ## Fuzzy tier tables

`searchengines.NewSearchMultipleKeywords.get_allow_distance` (identical in
`SearchMultipleKeywords` and `engines.BaseSearchEngine`): iterate over the
sorted `(minLength, distance)` pairs and keep the distance of every pair
whose `minLength` is *strictly below* the keyword's length, so the last
such pair wins.

`optimized_searchengines.VectorizedSearchEngine._get_edit_distance_threshold`
is the same loop but with a *non-strict* comparison `len(keyword) >= min_len`.
-/

/-- `get_allow_distance` of `searchengines.py` (strict `len(k) > length`). -/
def getAllowDistance (tbl : List (Nat × Nat)) (k : String) : Nat :=
  tbl.foldl (fun dist p => if k.length > p.1 then p.2 else dist) 0

/-- `_get_edit_distance_threshold` of `optimized_searchengines.py`
(non-strict `len(keyword) >= min_len`). -/
def getEditDistanceThresholdOpt (tbl : List (Nat × Nat)) (k : String) : Nat :=
  tbl.foldl (fun dist p => if k.length ≥ p.1 then p.2 else dist) 0

/-- The tier rule exactly as the specification words it: the distance of
the *last* pair whose `minLength` is strictly less than `L`, and `0` when
no pair's `minLength` is below `L`. -/
def specTierDistanceLt (tbl : List (Nat × Nat)) (L : Nat) : Nat :=
  ((tbl.reverse.find? (fun p => p.1 < L)).map Prod.snd).getD 0

/-- The non-strict variant of the tier rule: the distance of the last pair
whose `minLength` is at most `L`, and `0` when none is. -/
def specTierDistanceLe (tbl : List (Nat × Nat)) (L : Nat) : Nat :=
  ((tbl.reverse.find? (fun p => p.1 ≤ L)).map Prod.snd).getD 0

example : getAllowDistance [(5, 1), (10, 2)] "abcde" = 0 := by decide
example : getAllowDistance [(5, 1), (10, 2)] "abcdef" = 1 := by decide
example : getEditDistanceThresholdOpt [(5, 1), (10, 2)] "abcde" = 1 := by decide

theorem foldl_tier_lt (L : Nat) (tbl : List (Nat × Nat)) (a : Nat) :
    tbl.foldl (fun dist p => if p.1 < L then p.2 else dist) a
      = ((tbl.reverse.find? (fun p => p.1 < L)).map Prod.snd).getD a := by
  induction tbl generalizing a with
  | nil => rfl
  | cons p rest ih =>
      simp only [List.foldl_cons, List.reverse_cons, List.find?_append, ih]
      rcases h : rest.reverse.find? (fun p => p.1 < L) with _ | q
      · by_cases hp : p.1 < L <;> simp [h, hp, List.find?]
      · simp [h]

theorem foldl_tier_le (L : Nat) (tbl : List (Nat × Nat)) (a : Nat) :
    tbl.foldl (fun dist p => if p.1 ≤ L then p.2 else dist) a
      = ((tbl.reverse.find? (fun p => p.1 ≤ L)).map Prod.snd).getD a := by
  induction tbl generalizing a with
  | nil => rfl
  | cons p rest ih =>
      simp only [List.foldl_cons, List.reverse_cons, List.find?_append, ih]
      rcases h : rest.reverse.find? (fun p => p.1 ≤ L) with _ | q
      · by_cases hp : p.1 ≤ L <;> simp [h, hp, List.find?]
      · simp [h]

/-! ## Keyword dictionaries

`NewSearchMultipleKeywords.__init__` builds a python dict mapping each
trimmed, lowercased keyword string to a group id, keeping the first
occurrence and logging an error on a duplicate.

`engines.OptimizedSearchEngine.__init__` (and likewise
`optimized_searchengines.VectorizedSearchEngine.__init__`) instead assigns
`self.keyword_to_id[keyword] = uid` unconditionally, so a later duplicate
silently overwrites the earlier id.

Python dicts preserve insertion order; they are modelled as association
lists, with `assocFind` as dict lookup. Entries are `(group_id, keyword)`
pairs as in the CSV input. -/

/-- ASCII lowercasing of one character, as python `str.lower` acts on the
ASCII range. -/
def lowerChar (c : Char) : Char :=
  if 65 ≤ c.toNat ∧ c.toNat ≤ 90 then Char.ofNat (c.toNat + 32) else c

/-- python `str.lower` (ASCII fragment). -/
def toLowerStr (s : String) : String := String.mk (s.data.map lowerChar)

/-- python `str.strip`: drop leading and trailing whitespace. -/
def trimStr (s : String) : String :=
  String.mk (((s.data.dropWhile Char.isWhitespace).reverse.dropWhile
    Char.isWhitespace).reverse)

/-- `k.strip().lower()` applied to every keyword before it is stored. -/
def normalizeKw (k : String) : String := toLowerStr (trimStr k)

/-- Dict lookup on an insertion-ordered association list. -/
def assocFind : List (String × String) → String → Option String
  | [], _ => none
  | p :: rest, k => if p.1 = k then some p.2 else assocFind rest k

/-- The keyword dict of `NewSearchMultipleKeywords.__init__`: first
occurrence of a keyword string wins, later duplicates are discarded. -/
def buildKeywords (entries : List (String × String)) : List (String × String) :=
  entries.foldl
    (fun m e =>
      let k := normalizeKw e.2
      if (assocFind m k).isSome then m else m ++ [(k, e.1)])
    []

/-- In-place overwrite of an association-list key, as a python dict
assignment `d[k] = v` (the key keeps its original position). -/
def upsert : List (String × String) → String → String → List (String × String)
  | [], k, v => [(k, v)]
  | p :: rest, k, v => if p.1 = k then (k, v) :: rest else p :: upsert rest k v

/-- The `keyword_to_id` dict of `engines.OptimizedSearchEngine.__init__`:
every entry is assigned unconditionally, so the last occurrence of a
keyword string wins. -/
def enginesKeywordToId (entries : List (String × String)) : List (String × String) :=
  entries.foldl (fun m e => upsert m (normalizeKw e.2) e.1) []

theorem assocFind_append (m₁ m₂ : List (String × String)) (k : String) :
    assocFind (m₁ ++ m₂) k = (assocFind m₁ k).or (assocFind m₂ k) := by
  induction m₁ with
  | nil => rfl
  | cons p rest ih =>
      by_cases hp : p.1 = k <;> simp [assocFind, hp, ih]

theorem assocFind_upsert (m : List (String × String)) (k v k' : String) :
    assocFind (upsert m k v) k' = if k' = k then some v else assocFind m k' := by
  induction m with
  | nil =>
      by_cases h : k' = k
      · subst h; simp [upsert, assocFind]
      · have h' : ¬(k = k') := fun e => h e.symm
        simp [upsert, assocFind, h, h']
  | cons p rest ih =>
      by_cases hp : p.1 = k
      · simp only [upsert, if_pos hp]
        by_cases h : k' = k
        · subst h; simp [assocFind]
        · have h' : ¬(k = k') := fun e => h e.symm
          have hp' : ¬(p.1 = k') := hp ▸ h'
          simp [assocFind, h, h', hp']
      · simp only [upsert, if_neg hp]
        by_cases h : p.1 = k'
        · have hk : ¬(k' = k) := fun e => hp (h.trans e)
          simp [assocFind, h, hk]
        · simp [assocFind, h, ih]

theorem buildKeywords_go (entries : List (String × String))
    (m : List (String × String)) (k : String) :
    assocFind (entries.foldl
        (fun m e =>
          let kk := normalizeKw e.2
          if (assocFind m kk).isSome then m else m ++ [(kk, e.1)]) m) k
      = (assocFind m k).or
          ((entries.find? (fun e => normalizeKw e.2 == k)).map Prod.fst) := by
  induction entries generalizing m with
  | nil => simp
  | cons e rest ih =>
      rw [List.foldl_cons]
      by_cases hk : normalizeKw e.2 = k
      · subst hk
        rw [List.find?_cons_of_pos _ (by simp)]
        by_cases hmem : ((assocFind m (normalizeKw e.2)).isSome : Prop)
        · simp only [if_pos hmem, ih]
          obtain ⟨q, hq⟩ := Option.isSome_iff_exists.mp hmem
          rw [hq]
          rfl
        · simp only [if_neg hmem, ih, assocFind_append]
          have hX : assocFind m (normalizeKw e.2) = none :=
            Option.not_isSome_iff_eq_none.mp hmem
          have hXs : assocFind [(normalizeKw e.2, e.1)] (normalizeKw e.2) = some e.1 := by
            simp [assocFind]
          rw [hX, hXs]
          rfl
      · rw [List.find?_cons_of_neg _ (by simp [hk])]
        by_cases hmem : ((assocFind m (normalizeKw e.2)).isSome : Prop)
        · simp only [if_pos hmem, ih]
        · simp only [if_neg hmem, ih, assocFind_append]
          have hXs : assocFind [(normalizeKw e.2, e.1)] k = none := by
            simp [assocFind, hk]
          rw [hXs, Option.or_none]

theorem enginesKeywordToId_go (entries : List (String × String))
    (m : List (String × String)) (k : String) :
    assocFind (entries.foldl (fun m e => upsert m (normalizeKw e.2) e.1) m) k
      = ((entries.reverse.find? (fun e => normalizeKw e.2 == k)).map Prod.fst).or
          (assocFind m k) := by
  induction entries generalizing m with
  | nil => simp
  | cons e rest ih =>
      rw [List.foldl_cons, List.reverse_cons, List.find?_append, ih]
      rcases h : rest.reverse.find? (fun e => normalizeKw e.2 == k) with _ | q
      · rw [h, Option.none_or, Option.map_none', Option.none_or]
        by_cases hk : normalizeKw e.2 = k
        · rw [List.find?_cons_of_pos _ (by simp [hk])]
          rw [assocFind_upsert, if_pos hk.symm]
          rfl
        · rw [List.find?_cons_of_neg _ (by simp [hk])]
          rw [assocFind_upsert, if_neg (fun e' => hk e'.symm)]
          rfl
      · rw [h, Option.or_some]
        rfl

/-! ## Nearest-keyword resolution for approximate matches

`NewSearchMultipleKeywords.find_nearest_key` iterates over the keyword dict
keys in insertion order and returns the *first* keyword whose own tolerance
permits its edit distance to the query — it performs no minimisation.

`VectorizedSearchEngine._find_nearest_keyword` tracks a running minimum
(`dist < min_distance`, starting from infinity) over the keywords with
positive threshold whose threshold permits the distance, so the first
keyword attaining the minimal distance wins. -/

/-- `find_nearest_key` of `searchengines.py`. -/
def findNearestKey (tbl : List (Nat × Nat)) : List String → String → Option String
  | [], _ => none
  | k :: rest, key =>
      if lev k key ≤ getAllowDistance tbl k then some k
      else findNearestKey tbl rest key

/-- The loop of `_find_nearest_keyword`, carrying `(nearest_keyword,
min_distance)`; `none` stands for the initial `(None, float("inf"))`. -/
def findNearestKeywordGo (tbl : List (Nat × Nat)) (t : String) :
    List String → Option (String × Nat) → Option (String × Nat)
  | [], best => best
  | k :: rest, best =>
      let thr := getEditDistanceThresholdOpt tbl k
      let d := lev k (toLowerStr t)
      findNearestKeywordGo tbl t rest
        (if 0 < thr ∧ d ≤ thr ∧ (∀ b ∈ best, d < b.2) then some (k, d) else best)

/-- `_find_nearest_keyword` of `optimized_searchengines.py`. -/
def findNearestKeyword (tbl : List (Nat × Nat)) (kws : List String) (t : String) :
    Option String :=
  (findNearestKeywordGo tbl t kws none).map Prod.fst

/-- A keyword takes part in `_find_nearest_keyword`'s minimisation iff its
threshold is positive and permits the keyword's distance to the lowercased
span text. -/
def permittedOpt (tbl : List (Nat × Nat)) (t : String) (k : String) : Bool :=
  decide (0 < getEditDistanceThresholdOpt tbl k ∧
    lev k (toLowerStr t) ≤ getEditDistanceThresholdOpt tbl k)

theorem findNearestKey_eq_find? (tbl : List (Nat × Nat)) (kws : List String)
    (key : String) :
    findNearestKey tbl kws key
      = kws.find? (fun k => decide (lev k key ≤ getAllowDistance tbl k)) := by
  induction kws with
  | nil => rfl
  | cons k rest ih =>
      by_cases h : lev k key ≤ getAllowDistance tbl k <;>
        simp [findNearestKey, List.find?, h, ih]

theorem findNearestKeywordGo_argmin (tbl : List (Nat × Nat)) (t : String)
    (kws : List String) (best : Option (String × Nat))
    (hinv : ∀ b ∈ best, b.2 = lev b.1 (toLowerStr t)) :
    (findNearestKeywordGo tbl t kws best).map Prod.fst
      = (kws.filter (permittedOpt tbl t)).foldl
          (List.argAux fun b c => lev b (toLowerStr t) < lev c (toLowerStr t))
          (best.map Prod.fst) := by
  induction kws generalizing best with
  | nil => rfl
  | cons k rest ih =>
      simp only [findNearestKeywordGo, List.filter_cons]
      by_cases hperm : (permittedOpt tbl t k : Prop)
      · have hp := of_decide_eq_true hperm
        simp only [hperm, if_true, List.foldl_cons]
        rcases best with _ | ⟨b, db⟩
        · rw [if_pos ⟨hp.1, hp.2, by simp⟩]
          rw [ih _ (by simp)]
          rfl
        · have hdb : db = lev b (toLowerStr t) := hinv (b, db) rfl
          by_cases hlt : lev k (toLowerStr t) < db
          · rw [if_pos ⟨hp.1, hp.2, by simp [hlt]⟩]
            rw [ih _ (by simp)]
            simp [List.argAux, hdb ▸ hlt]
          · rw [if_neg (by simp [hlt])]
            rw [ih _ hinv]
            have : ¬(lev k (toLowerStr t) < lev b (toLowerStr t)) := hdb ▸ hlt
            simp [List.argAux, this]
      · have hnp : permittedOpt tbl t k = false := by
          simpa using hperm
        have hcond : ¬(0 < getEditDistanceThresholdOpt tbl k ∧
            lev k (toLowerStr t) ≤ getEditDistanceThresholdOpt tbl k ∧
            (∀ b ∈ best, lev k (toLowerStr t) < b.2)) := by
          intro hc
          exact hperm (by simp [permittedOpt, hc.1, hc.2.1])
        simp only [hnp, Bool.false_eq_true, if_false, if_neg hcond]
        exact ih best hinv

/-- The optimized nearest-keyword search refines `List.argmin` over the
permitted keywords. -/
theorem findNearestKeyword_eq_argmin (tbl : List (Nat × Nat)) (kws : List String)
    (t : String) :
    findNearestKeyword tbl kws t
      = (kws.filter (permittedOpt tbl t)).argmin (fun k => lev k (toLowerStr t)) := by
  rw [findNearestKeyword, findNearestKeywordGo_argmin tbl t kws none (by simp)]
  rfl

theorem assocFind_eq_none_iff (m : List (String × String)) (k : String) :
    assocFind m k = none ↔ k ∉ m.map Prod.fst := by
  induction m with
  | nil => simp [assocFind]
  | cons p rest ih =>
      by_cases hp : p.1 = k
      · simp [assocFind, hp]
      · have hp' : ¬(k = p.1) := fun e => hp e.symm
        simp only [assocFind, if_neg hp, List.map_cons, List.mem_cons, ih]
        tauto

theorem buildKeywords_nodup_go (entries : List (String × String))
    (m : List (String × String)) (hm : (m.map Prod.fst).Nodup) :
    ((entries.foldl
        (fun m e =>
          let kk := normalizeKw e.2
          if (assocFind m kk).isSome then m else m ++ [(kk, e.1)]) m).map
      Prod.fst).Nodup := by
  induction entries generalizing m with
  | nil => exact hm
  | cons e rest ih =>
      rw [List.foldl_cons]
      by_cases hmem : ((assocFind m (normalizeKw e.2)).isSome : Prop)
      · rw [if_pos hmem]; exact ih m hm
      · rw [if_neg hmem]
        refine ih _ ?_
        have hnone : assocFind m (normalizeKw e.2) = none :=
          Option.not_isSome_iff_eq_none.mp hmem
        have hnotin : normalizeKw e.2 ∉ m.map Prod.fst :=
          (assocFind_eq_none_iff m _).mp hnone
        rw [List.map_append, List.nodup_append]
        refine ⟨hm, by simp, ?_⟩
        intro a ham hain
        rw [List.map_cons, List.map_nil, List.mem_singleton] at hain
        subst hain
        exact hnotin ham

/-! ## Claim theorems: tier tables, duplicate keywords, nearest keyword -/

/-- **C7, counterexample.** The claim asserts that for every engine the
computed allowed edit distance follows the strict rule (last pair with
`minLength < L`). `VectorizedSearchEngine._get_edit_distance_threshold`
compares non-strictly (`len(keyword) >= min_len`): on the tier table
`[(5, 1)]` and the 5-character keyword `"abcde"` it returns `1`, while the
strict rule of the claim yields `0`. -/
theorem C7_counterexample :
    getEditDistanceThresholdOpt [(5, 1)] "abcde" = 1 ∧
    specTierDistanceLt [(5, 1)] ("abcde".length) = 0 ∧
    getEditDistanceThresholdOpt [(5, 1)] "abcde"
      ≠ specTierDistanceLt [(5, 1)] ("abcde".length) := by
  refine ⟨by decide, by decide, by decide⟩

/-- **C7, amended.** For every tier table and keyword,
`searchengines.get_allow_distance` returns the distance of the last pair
whose `minLength` is strictly less than the keyword's length (`0` when no
pair applies), exactly as the claim states; the optimized engine's
`_get_edit_distance_threshold` instead returns the distance of the last
pair whose `minLength` is *at most* the keyword's length. -/
theorem C7_tier_table_rule :
    (∀ (tbl : List (Nat × Nat)) (k : String),
        getAllowDistance tbl k = specTierDistanceLt tbl k.length) ∧
    (∀ (tbl : List (Nat × Nat)) (k : String),
        getEditDistanceThresholdOpt tbl k = specTierDistanceLe tbl k.length) := by
  constructor
  · intro tbl k
    have h := foldl_tier_lt k.length tbl 0
    simpa [getAllowDistance, specTierDistanceLt] using h
  · intro tbl k
    have h := foldl_tier_le k.length tbl 0
    simpa [getEditDistanceThresholdOpt, specTierDistanceLe] using h

/-- **C6, counterexample.** The claim asserts every index builder keeps the
first occurrence of a duplicated keyword string, so that building from
`[("A","smith"), ("B","smith")]` maps `"smith"` to `"A"`.
`engines.OptimizedSearchEngine.__init__` assigns unconditionally, so the
later entry wins: the resulting dict maps `"smith"` to `"B"`. -/
theorem C6_counterexample :
    assocFind (enginesKeywordToId [("A", "smith"), ("B", "smith")]) "smith" = some "B" ∧
    assocFind (enginesKeywordToId [("A", "smith"), ("B", "smith")]) "smith" ≠ some "A" := by
  refine ⟨by decide, by decide⟩

/-- **C6, amended.** `NewSearchMultipleKeywords.__init__` keeps at most one
group id per distinct trimmed-lowercased keyword string (the dict keys it
builds are nodup), with the first occurrence winning: looking up a keyword
returns the id of the first entry carrying it, so
`[("A","smith"), ("B","smith")]` maps `"smith"` to `"A"` and the later entry
is discarded (after logging an error). The `keyword_to_id` dict of
`engines.OptimizedSearchEngine.__init__` (and of
`VectorizedSearchEngine.__init__`) instead lets the *last* occurrence win,
silently: lookup returns the id of the last entry carrying the keyword. -/
theorem C6_duplicate_keyword_rule :
    (∀ (entries : List (String × String)) (k : String),
        assocFind (buildKeywords entries) k
          = (entries.find? (fun e => normalizeKw e.2 == k)).map Prod.fst) ∧
    (∀ entries : List (String × String), ((buildKeywords entries).map Prod.fst).Nodup) ∧
    (∀ (entries : List (String × String)) (k : String),
        assocFind (enginesKeywordToId entries) k
          = (entries.reverse.find? (fun e => normalizeKw e.2 == k)).map Prod.fst) := by
  refine ⟨fun entries k => ?_, fun entries => ?_, fun entries k => ?_⟩
  · have h := buildKeywords_go entries [] k
    simpa [buildKeywords, assocFind] using h
  · exact buildKeywords_nodup_go entries [] (by simp)
  · have h := enginesKeywordToId_go entries [] k
    simpa [enginesKeywordToId, assocFind] using h

/-- **C1, counterexample.** The claim asserts that an approximate span is
assigned the keyword at minimum edit distance among all keywords whose
tolerance permits the distance. With tier table `[(4, 2)]` (so both
5-character keywords have tolerance 2) and the span text `"aaabc"`,
`NewSearchMultipleKeywords.find_nearest_key` returns the first keyword
`"aaaaa"` (distance 2) even though `"aaabb"` is permitted at the strictly
smaller distance 1. -/
theorem C1_counterexample :
    findNearestKey [(4, 2)] ["aaaaa", "aaabb"] "aaabc" = some "aaaaa" ∧
    lev "aaabb" "aaabc" ≤ getAllowDistance [(4, 2)] "aaabb" ∧
    lev "aaabb" "aaabc" < lev "aaaaa" "aaabc" := by
  refine ⟨by decide, by decide, by decide⟩

/-- **C1, amended.** `NewSearchMultipleKeywords.find_nearest_key` assigns an
approximate span to the *first* keyword in index build order whose own
tolerance permits its edit distance to the span text — not necessarily the
closest keyword. `VectorizedSearchEngine._find_nearest_keyword` does
implement the claim's rule: it returns the keyword of minimum edit distance
(to the lowercased span) among the keywords with positive threshold
permitting that distance, the first keyword in build order winning ties
(this is `List.argmin` over the permitted keywords). -/
theorem C1_nearest_keyword_rule :
    (∀ (tbl : List (Nat × Nat)) (kws : List String) (key : String),
        findNearestKey tbl kws key
          = kws.find? (fun k => decide (lev k key ≤ getAllowDistance tbl k))) ∧
    (∀ (tbl : List (Nat × Nat)) (kws : List String) (t : String),
        findNearestKeyword tbl kws t
          = (kws.filter (permittedOpt tbl t)).argmin (fun k => lev k (toLowerStr t))) :=
  ⟨findNearestKey_eq_find?, findNearestKeyword_eq_argmin⟩

/-! ## Word-bounded literal matching

For a tolerance-0 keyword the compiled pattern is the escaped literal
keyword between `\b` anchors. `SearchMultipleKeywords` compiles with
`flags=re.I`; `NewSearchMultipleKeywords` compiles with no flags, and
`engines.py` compiles each per-keyword pattern `\bkw\b` with `re.I`.
`litFindIter` embeds `finditer` of such a literal pattern: a left-to-right
scan emitting non-overlapping matches, where `\w` is modelled for ASCII
text and `ci` selects case-insensitive comparison. -/

/-- `\w`: ASCII letters, digits and underscore. -/
def isWordChar (c : Char) : Bool := c.isAlphanum || c = '_'

/-- Whether the character at position `i` of `t` is a word character
(out-of-range counts as non-word). -/
def isWordAt (t : List Char) (i : Nat) : Bool :=
  match t.get? i with
  | some c => isWordChar c
  | none => false

/-- `\b` holds between positions `p-1` and `p` iff exactly one side is a
word character. -/
def boundaryAt (t : List Char) (p : Nat) : Bool :=
  (if p = 0 then false else isWordAt t (p - 1)) != isWordAt t p

/-- Whether the literal `pat` matches in `t` at position `pos`, between
word boundaries; `ci` compares case-insensitively. -/
def matchesAt (ci : Bool) (pat t : List Char) (pos : Nat) : Bool :=
  let w := (t.drop pos).take pat.length
  decide (w.length = pat.length) &&
    (if ci then decide (w.map lowerChar = pat.map lowerChar) else decide (w = pat)) &&
    boundaryAt t pos && boundaryAt t (pos + pat.length)

/-- A raw match span: the matched text as it appears in the source, its
start offset and its end offset. -/
abbrev Span := String × Nat × Nat

/-- The scan loop of `finditer`, with step fuel. -/
def litFindIterGo (ci : Bool) (pat t : List Char) : Nat → Nat → List Span
  | 0, _ => []
  | fuel + 1, pos =>
      if t.length < pos then []
      else if matchesAt ci pat t pos then
        (String.mk ((t.drop pos).take pat.length), pos, pos + pat.length)
          :: litFindIterGo ci pat t fuel (pos + max 1 pat.length)
      else litFindIterGo ci pat t fuel (pos + 1)

/-- `finditer` of a word-bounded literal pattern over a text. -/
def litFindIter (ci : Bool) (pat text : String) : List Span :=
  litFindIterGo ci pat.data text.data (text.data.length + 1) 0

example : litFindIter true "john smith" "Hello John Smith, how are you?"
    = [("John Smith", 6, 16)] := by decide
example : litFindIter false "john smith" "Hello John Smith, how are you?" = [] := by decide
example : litFindIter true "ab" "ab ab" = [("ab", 0, 2), ("ab", 3, 5)] := by decide
example : litFindIter true "ab" "abab cab" = [] := by decide

/-! ## Search result assembly (`searchengines.py`)

Both `search` methods build a python list `c` of alternating string and
integer cells (five per matched group: id, count, joined match texts,
joined starts, joined ends), truncated to the first `n` groups and padded
with empty strings to exactly `n` groups, and separately a grand total
`count`; they return the tuple `(c, count)` — except when `n == 0`, where
they return the bare list `c = []` alone. The dynamic return value is
modelled by `SearchReturn`. -/

/-- One python cell: a string or an integer. -/
inductive Cell where
  | str (v : String)
  | nat (v : Nat)
deriving DecidableEq

/-- The dynamic return value of `search`: either the bare list `c`
(the `n == 0` early return) or the tuple `(c, count)`. -/
inductive SearchReturn where
  | bare (c : List Cell)
  | pair (c : List Cell) (count : Nat)
deriving DecidableEq

/-- Whether a `search` return value is the `(results, totalCount)` tuple. -/
def SearchReturn.isPair : SearchReturn → Bool
  | .bare _ => false
  | .pair _ _ => true

/-- Shape test through the possibility of a `KeyError`
(a `None` nearest key). -/
def exceptIsPair : Except Unit SearchReturn → Bool
  | .ok r => r.isPair
  | .error _ => false

instance {ε α : Type} [DecidableEq ε] [DecidableEq α] : DecidableEq (Except ε α) :=
  fun a b =>
    match a, b with
    | .error e, .error e' =>
        if h : e = e' then isTrue (h ▸ rfl)
        else isFalse (fun hc => h (Except.error.inj hc))
    | .ok x, .ok y =>
        if h : x = y then isTrue (h ▸ rfl)
        else isFalse (fun hc => h (Except.ok.inj hc))
    | .error _, .ok _ => isFalse (fun hc => Except.noConfusion hc)
    | .ok _, .error _ => isFalse (fun hc => Except.noConfusion hc)

/-- Append a span to its group in the insertion-ordered match dict. -/
def addMatch (m : List (String × List Span)) (k : String) (sp : Span) :
    List (String × List Span) :=
  match m with
  | [] => [(k, [sp])]
  | (k', l) :: rest =>
      if k' = k then (k', l ++ [sp]) :: rest else (k', l) :: addMatch rest k sp

/-- `";".join(...)`. -/
def joinSemi : List String → String
  | [] => ""
  | [x] => x
  | x :: rest => x ++ ";" ++ joinSemi rest

/-- The five cells one matched group contributes to the result row. -/
def groupCells (g : String × List Span) : List Cell :=
  [Cell.str g.1, Cell.nat g.2.length,
   Cell.str (joinSemi (g.2.map Prod.fst)),
   Cell.str (joinSemi (g.2.map (fun m => toString m.2.1))),
   Cell.str (joinSemi (g.2.map (fun m => toString m.2.2)))]

/-- The result row: the first `n` groups' cells, padded with empty strings
to exactly `n` group slots of width 5. -/
def emitRows (groups : List (String × List Span)) (n : Nat) : List Cell :=
  ((groups.take n).map groupCells).flatten
    ++ List.replicate ((n - (groups.take n).length) * 5) (Cell.str "")

/-- Resolution of one raw match span in `NewSearchMultipleKeywords.search`:
the stripped span text on an exact dict hit (recording the stripped text),
otherwise `find_nearest_key` on the unstripped text (recording the
unstripped text); a `None` nearest key makes the subsequent dict access
raise `KeyError`, modelled as `none`. -/
def resolveSpan (tbl : List (Nat × Nat)) (kws : List (String × String))
    (raw : String) : Option (String × String) :=
  let fkey := trimStr raw
  match assocFind kws fkey with
  | some id => some (id, fkey)
  | none =>
      match findNearestKey tbl (kws.map Prod.fst) raw with
      | some k => (assocFind kws k).map (fun id => (id, raw))
      | none => none

/-- `NewSearchMultipleKeywords.search` downstream of the compiled
automaton: takes the tier table, the keyword dict (keyword → id, in build
order) and the raw spans produced by `finditer`, groups the spans by
resolved id in first-encounter order, and assembles the result row and the
grand total. `n = 0` returns the bare empty list before any scanning. -/
def newSearchCore (tbl : List (Nat × Nat)) (kws : List (String × String))
    (spans : List Span) (n : Nat) : Except Unit SearchReturn :=
  if n = 0 then .ok (.bare [])
  else do
    let groups ← spans.foldlM
      (fun m sp =>
        match resolveSpan tbl kws sp.1 with
        | some (id, txt) => Except.ok (addMatch m id (txt, sp.2.1, sp.2.2))
        | none => Except.error ())
      ([] : List (String × List Span))
    pure (.pair (emitRows groups n) ((groups.map (fun g => g.2.length)).sum))

/-- `NewSearchMultipleKeywords` on an index holding a single tolerance-0
keyword (empty tier table): the combined automaton is the literal
normalized keyword between `\b` anchors, compiled *without* `re.I`. -/
def newSearchSingleExact (id kw text : String) (n : Nat) : Except Unit SearchReturn :=
  newSearchCore [] (buildKeywords [(id, kw)])
    (litFindIter false (normalizeKw kw) text) n

/-- The assembly stage of `SearchMultipleKeywords.search` (the older
per-group engine): takes the per-id match dict and emits the same row
shape; `n = 0` returns the bare empty list. -/
def oldSearchAssemble (groups : List (String × List Span)) (n : Nat) : SearchReturn :=
  if n = 0 then .bare []
  else .pair (emitRows groups n) ((groups.map (fun g => g.2.length)).sum)

/-- `SearchMultipleKeywords` on a single tolerance-0 keyword: its per-id
pattern is compiled *with* `flags=re.I`, and each recorded match text is the
source span stripped (`a.group(0).strip()`). -/
def oldSearchSingleExact (id kw text : String) (n : Nat) : SearchReturn :=
  let k := normalizeKw kw
  let sps := (litFindIter true k text).map (fun sp => (trimStr sp.1, sp.2.1, sp.2.2))
  oldSearchAssemble (if sps.isEmpty then [] else [(id, sps)]) n

/-! ## `engines.OptimizedSearchEngine.search`

This engine iterates its `compiled_patterns` triples `(uid, keyword,
threshold)`; each per-keyword pattern is the plain literal `\bkw\b` with
`re.I`, fuzzy keywords being post-filtered by Levenshtein distance. It
appends one record per raw match (with `n = 1` and the lowercased match
text) and stops as soon as `max_results` records are collected — there is
no per-group row, no padding and no grand total. -/

/-- One result record of `engines.OptimizedSearchEngine.search`; `mtext`
models the `"match"` field. -/
structure MatchRec where
  uniqid : String
  n : Nat
  mtext : String
  start : Nat
  stop : Nat
deriving DecidableEq

/-- The inner match loop for one compiled pattern: distance post-filter,
append, break on `len(results) >= max_results`. -/
def enginesInner (kw : String) (thr : Nat) (uid : String) (maxR : Nat) :
    List Span → List MatchRec → List MatchRec
  | [], acc => acc
  | sp :: rest, acc =>
      let mt := toLowerStr sp.1
      if 0 < thr ∧ thr < lev kw mt then enginesInner kw thr uid maxR rest acc
      else
        let acc' := acc ++ [MatchRec.mk uid 1 mt sp.2.1 sp.2.2]
        if maxR ≤ acc'.length then acc' else enginesInner kw thr uid maxR rest acc'

/-- The outer loop over `compiled_patterns`, breaking once the accumulator
is full. -/
def enginesSearchGo (text : String) (maxR : Nat) :
    List (String × String × Nat) → List MatchRec → List MatchRec
  | [], acc => acc
  | (uid, kw, thr) :: rest, acc =>
      if maxR ≤ acc.length then acc
      else enginesSearchGo text maxR rest
        (enginesInner kw thr uid maxR (litFindIter true kw text) acc)

/-- `engines.OptimizedSearchEngine.search`, parameterized by the
`compiled_patterns` field. -/
def enginesSearch (pats : List (String × String × Nat)) (text : String)
    (maxR : Nat) : List MatchRec :=
  enginesSearchGo text maxR pats []

theorem enginesInner_length_le (kw : String) (thr : Nat) (uid : String)
    (maxR : Nat) (sps : List Span) (acc : List MatchRec)
    (h : acc.length < maxR) :
    (enginesInner kw thr uid maxR sps acc).length ≤ maxR := by
  induction sps generalizing acc with
  | nil => exact Nat.le_of_lt h
  | cons sp rest ih =>
      rw [enginesInner]
      by_cases hskip : 0 < thr ∧ thr < lev kw (toLowerStr sp.1)
      · rw [if_pos hskip]; exact ih acc h
      · rw [if_neg hskip]
        by_cases hfull :
            maxR ≤ (acc ++ [MatchRec.mk uid 1 (toLowerStr sp.1) sp.2.1 sp.2.2]).length
        · rw [if_pos hfull]
          simp only [List.length_append, List.length_cons, List.length_nil]
          omega
        · rw [if_neg hfull]
          exact ih _ (Nat.lt_of_not_le hfull)

theorem enginesSearchGo_length_le (text : String) (maxR : Nat)
    (pats : List (String × String × Nat)) (acc : List MatchRec)
    (h : acc.length ≤ maxR) :
    (enginesSearchGo text maxR pats acc).length ≤ maxR := by
  induction pats generalizing acc with
  | nil => exact h
  | cons p rest ih =>
      obtain ⟨uid, kw, thr⟩ := p
      rw [enginesSearchGo]
      by_cases hfull : maxR ≤ acc.length
      · rw [if_pos hfull]; exact h
      · rw [if_neg hfull]
        exact ih _ (enginesInner_length_le kw thr uid maxR _ acc (Nat.lt_of_not_le hfull))

/-! ## Result-row shape and total count (`NewSearchMultipleKeywords.search`) -/

theorem groupCells_length (g : String × List Span) : (groupCells g).length = 5 := rfl

theorem flatten_map_groupCells_length (gs : List (String × List Span)) :
    ((gs.map groupCells).flatten).length = 5 * gs.length := by
  induction gs with
  | nil => rfl
  | cons g rest ih =>
      simp [List.flatten, groupCells_length, ih, Nat.mul_succ, Nat.add_comm]

theorem emitRows_length (groups : List (String × List Span)) (n : Nat) :
    (emitRows groups n).length = 5 * n := by
  have htake : (groups.take n).length ≤ n := by
    simp [List.length_take]
  simp only [emitRows, List.length_append, flatten_map_groupCells_length,
    List.length_replicate]
  omega

theorem addMatch_totals (m : List (String × List Span)) (k : String) (sp : Span) :
    ((addMatch m k sp).map (fun g => g.2.length)).sum
      = ((m.map (fun g => g.2.length)).sum) + 1 := by
  induction m with
  | nil => simp [addMatch]
  | cons g rest ih =>
      by_cases h : g.1 = k
      · simp only [addMatch, if_pos h, List.map_cons, List.sum_cons,
          List.length_append, List.length_cons, List.length_nil]
        omega
      · simp only [addMatch, if_neg h, List.map_cons, List.sum_cons, ih]
        omega

theorem foldlM_resolve_totals (tbl : List (Nat × Nat))
    (kws : List (String × String)) (spans : List Span)
    (m groups : List (String × List Span))
    (h : spans.foldlM
        (fun m sp =>
          match resolveSpan tbl kws sp.1 with
          | some (id, txt) => Except.ok (addMatch m id (txt, sp.2.1, sp.2.2))
          | none => Except.error ()) m = Except.ok groups) :
    (groups.map (fun g => g.2.length)).sum
      = ((m.map (fun g => g.2.length)).sum) + spans.length := by
  induction spans generalizing m with
  | nil =>
      simp only [List.foldlM_nil] at h
      cases h
      simp
  | cons sp rest ih =>
      simp only [List.foldlM_cons] at h
      rcases hres : resolveSpan tbl kws sp.1 with _ | ⟨id, txt⟩
      · rw [hres] at h
        exact Except.noConfusion h
      · rw [hres] at h
        have h' : rest.foldlM
            (fun m sp =>
              match resolveSpan tbl kws sp.1 with
              | some (id, txt) => Except.ok (addMatch m id (txt, sp.2.1, sp.2.2))
              | none => Except.error ())
            (addMatch m id (txt, sp.2.1, sp.2.2)) = Except.ok groups := h
        have := ih _ h'
        rw [this, addMatch_totals]
        simp only [List.length_cons]
        omega

/-- **C4, counterexample.** The claim asserts every engine's `Search`
returns exactly `k` fixed-width result slots plus a total count.
`engines.OptimizedSearchEngine.search` instead returns one record per raw
match, capped at `k` and unpadded, with no total: on a single keyword
`"ab"` matching twice in `"ab ab"` with `k = 3`, it returns 2 records, not
3 slots. -/
theorem C4_counterexample :
    (enginesSearch [("A", "ab", 0)] "ab ab" 3).length = 2 ∧
    (enginesSearch [("A", "ab", 0)] "ab ab" 3).length ≠ 3 := by
  refine ⟨by decide, by decide⟩

/-- **C4, amended.** `NewSearchMultipleKeywords.search` behaves as the
claim states: for `k > 0`, whenever it returns (no approximate span failed
to resolve, i.e. no `KeyError`), the result is the `(row, totalCount)`
pair, the row has exactly `k` result slots of width 5 (empty-padded), and
`totalCount` counts every raw match — one per span, summed over *all*
matched groups beyond the `k` cap. `engines.OptimizedSearchEngine.search`
instead returns at most `k` individual match records, with no padding and
no total count. -/
theorem C4_capacity_padding_total :
    (∀ (tbl : List (Nat × Nat)) (kws : List (String × String)) (spans : List Span)
        (n : Nat) (c : List Cell) (cnt : Nat), 0 < n →
        newSearchCore tbl kws spans n = Except.ok (SearchReturn.pair c cnt) →
        c.length = 5 * n ∧ cnt = spans.length) ∧
    (∀ (pats : List (String × String × Nat)) (text : String) (k : Nat),
        (enginesSearch pats text k).length ≤ k) := by
  constructor
  · intro tbl kws spans n c cnt hn h
    rw [newSearchCore, if_neg (Nat.pos_iff_ne_zero.mp hn)] at h
    rcases hfold : spans.foldlM
        (fun m sp =>
          match resolveSpan tbl kws sp.1 with
          | some (id, txt) => Except.ok (addMatch m id (txt, sp.2.1, sp.2.2))
          | none => Except.error ())
        ([] : List (String × List Span)) with u | groups
    · rw [hfold] at h
      exact Except.noConfusion h
    · rw [hfold] at h
      have h2 : SearchReturn.pair (emitRows groups n)
            ((groups.map (fun g => g.2.length)).sum)
          = SearchReturn.pair c cnt := Except.ok.inj h
      obtain ⟨hc, hcnt⟩ := SearchReturn.pair.inj h2
      subst hc
      subst hcnt
      refine ⟨emitRows_length groups n, ?_⟩
      have := foldlM_resolve_totals tbl kws spans [] groups hfold
      simpa using this
  · intro pats text k
    exact enginesSearchGo_length_le text k pats [] (by simp)

/-- **C4, witness.** -/
theorem C4_witness :
    ((0 : Nat) < 3 ∧
      newSearchCore [] [("ab", "A")] [("ab", 0, 2), ("ab", 3, 5)] 3
        = Except.ok (SearchReturn.pair
            ([Cell.str "A", Cell.nat 2, Cell.str "ab;ab", Cell.str "0;3",
              Cell.str "2;5"] ++ List.replicate 10 (Cell.str "")) 2)) ∧
    (([Cell.str "A", Cell.nat 2, Cell.str "ab;ab", Cell.str "0;3",
        Cell.str "2;5"] ++ List.replicate 10 (Cell.str "")).length = 5 * 3 ∧
      2 = ([("ab", 0, 2), ("ab", 3, 5)] : List Span).length) :=
  ⟨⟨by decide, by decide⟩,
    C4_capacity_padding_total.1 [] [("ab", "A")] [("ab", 0, 2), ("ab", 3, 5)] 3 _ 2
      (by decide) (by decide)⟩

/-! ## `maxGroups = 0` and case sensitivity -/

/-- **C3, counterexample.** The claim asserts `Search` with `maxGroups = 0`
returns its usual `(results, totalCount)` pair shape. Both engines instead
return the bare list `c = []` alone (`return c` before any scanning), so a
caller unpacking `result, n = search(text, 0)` fails. -/
theorem C3_counterexample :
    newSearchSingleExact "1" "john smith" "Hello John Smith" 0
      = Except.ok (SearchReturn.bare []) ∧
    exceptIsPair (newSearchSingleExact "1" "john smith" "Hello John Smith" 0)
      = false := by
  refine ⟨by decide, by decide⟩

/-- **C3, amended.** Calling `search` with `maxGroups = 0` raises no error
and reports no results, but the value returned is the bare empty list, not
the `(results, totalCount)` pair produced for every positive `maxGroups`;
the worker's tuple unpacking would fail on it. This holds for both
`NewSearchMultipleKeywords.search` and `SearchMultipleKeywords.search`. -/
theorem C3_maxgroups_zero :
    (∀ (tbl : List (Nat × Nat)) (kws : List (String × String)) (spans : List Span),
        newSearchCore tbl kws spans 0 = Except.ok (SearchReturn.bare [])) ∧
    (∀ groups : List (String × List Span), oldSearchAssemble groups 0
        = SearchReturn.bare []) :=
  ⟨fun _ _ _ => rfl, fun _ => rfl⟩

/-- **C2, the code at the failing input.** The claim (and the spec's
exact-match baseline) requires case-insensitive matching in every engine:
keyword `("1", "john smith")` at tolerance 0 must match inside
`"Hello John Smith, how are you?"` with the source casing reported.
`SearchMultipleKeywords` (compiled with `re.I`) does exactly that, but
`NewSearchMultipleKeywords` compiles its combined pattern *without*
`re.I`, so the capitalized occurrence does not match at all and the search
returns an empty padded row with total 0. -/
theorem C2_case_sensitivity_bug :
    newSearchSingleExact "1" "john smith" "Hello John Smith, how are you?" 1
      = Except.ok (SearchReturn.pair (List.replicate 5 (Cell.str "")) 0) ∧
    oldSearchSingleExact "1" "john smith" "Hello John Smith, how are you?" 1
      = SearchReturn.pair
          [Cell.str "1", Cell.nat 1, Cell.str "John Smith", Cell.str "6",
            Cell.str "16"] 1 ∧
    litFindIter false (normalizeKw "john smith") "Hello John Smith, how are you?"
      = [] ∧
    litFindIter true (normalizeKw "john smith") "Hello John Smith, how are you?"
      = [("John Smith", 6, 16)] := by
  refine ⟨by decide, by decide, by decide, by decide⟩

/-! ## `load_drop_patterns` (`pipeline/step3_preprocess.py`, identical in
`preprocess/preprocess.py`)

The loop strips and lowercases each line and then executes
`if len(line): continue` before appending — so it *skips* every non-blank
line and appends only the (empty) blank ones. -/

/-- `load_drop_patterns` over the file's lines. -/
def loadDropPatterns (lines : List String) : List String :=
  lines.foldl
    (fun acc l =>
      let l' := toLowerStr (trimStr l)
      if l'.length ≠ 0 then acc else acc ++ [l'])
    []

theorem loadDropPatterns_go (lines : List String) (acc : List String) :
    lines.foldl
        (fun acc l =>
          let l' := toLowerStr (trimStr l)
          if l'.length ≠ 0 then acc else acc ++ [l'])
        acc
      = acc ++ (lines.filter
          (fun l => decide (toLowerStr (trimStr l) = ""))).map (fun _ => "") := by
  induction lines generalizing acc with
  | nil => simp
  | cons l rest ih =>
      rw [List.foldl_cons, List.filter_cons]
      by_cases h : toLowerStr (trimStr l) = ""
      · have hlen : ¬(toLowerStr (trimStr l)).length ≠ 0 := by
          simp [h]
        simp only [if_neg hlen, decide_eq_true_eq, if_pos h, ih, List.map_cons]
        rw [h]
        simp
      · have hlen : (toLowerStr (trimStr l)).length ≠ 0 := by
          intro hc
          exact h (String.ext (List.length_eq_zero.mp hc))
        simp only [if_pos hlen, decide_eq_true_eq, if_neg h, ih]

/-! ## Pattern generation (`preprocess_names`, step3)

One input row contributes, per template, the cartesian product of the
per-token value lists; `Prefix` and `NickName` resolve to the row's
semicolon-split multi-value columns, any other token to the lowercased
single value of that column. Tuples are filtered of empty members, joined
with single spaces, and kept only with more than one member and when not
listed in `drop_patterns`. -/

/-- A name record row: the two semicolon-delimited multi-value columns and
the remaining columns as a lookup `r[a]`. -/
structure NameRow where
  prefixes : String
  nick_names : String
  get : String → String

/-- Split on a character, python `str.split(sep)` (keeps empty pieces). -/
def splitOnPred (p : Char → Bool) (l : List Char) : List (List Char) :=
  l.foldr
    (fun c acc =>
      match acc with
      | cur :: rest => if p c then [] :: cur :: rest else (c :: cur) :: rest
      | [] => [[]])
    [[]]

/-- python `s.split(";")`. -/
def splitSemi (s : String) : List String :=
  (splitOnPred (fun c => c = ';') s.data).map String.mk

/-- python `s.split()`: split on whitespace runs, dropping empty pieces. -/
def pySplit (s : String) : List String :=
  ((splitOnPred Char.isWhitespace s.data).filter (fun w => w ≠ [])).map String.mk

example : splitSemi "" = [""] := by decide
example : splitSemi "bill;will" = ["bill", "will"] := by decide
example : pySplit "Prefix LastName" = ["Prefix", "LastName"] := by decide

/-- Resolution of one template token to its candidate value list. -/
def tokenValues (r : NameRow) (a : String) : List String :=
  if a = "Prefix" then splitSemi r.prefixes
  else if a = "NickName" then splitSemi r.nick_names
  else [toLowerStr (r.get a)]

/-- `itertools.product`, leftmost factor varying slowest. -/
def cartProd : List (List String) → List (List String)
  | [] => [[]]
  | l :: ls => l.flatMap (fun x => (cartProd ls).map (x :: ·))

/-- `" ".join(...)`. -/
def joinSpace : List String → String
  | [] => ""
  | [x] => x
  | x :: rest => x ++ " " ++ joinSpace rest

/-- The candidates one row emits for one template `p`: token values are
resolved after `a.strip()`, the product tuples are filtered of empty
members, joined, and kept when longer than one member and not
drop-listed. -/
def generateForPattern (drop : List String) (r : NameRow) (p : String) :
    List String :=
  (cartProd ((pySplit p).map (fun a => tokenValues r (trimStr a)))).filterMap
    (fun c =>
      if 1 < (c.filter (fun d => d.length ≠ 0)).length then
        if joinSpace (c.filter (fun d => d.length ≠ 0)) ∉ drop then
          some (joinSpace (c.filter (fun d => d.length ≠ 0)))
        else none
      else none)

/-- The row of the claim's examples: `FirstName = "john"`,
`LastName = "doe"`, empty `prefixes`. -/
def rowJohnDoe : NameRow :=
  ⟨"", "",
    fun a => if a = "FirstName" then "john" else if a = "LastName" then "doe" else ""⟩

/-- **C9.** Per row and template, generation emits exactly the join of each
cartesian-product tuple after dropping its empty members, kept iff more
than one member remains and the joined name is not an exact member of the
drop list; in particular `"Prefix LastName"` with empty `prefixes` and
`LastName = "doe"` yields nothing, while `"FirstName LastName"` with
`"john"`/`"doe"` yields `"john doe"`. -/
theorem C9_generation_rule :
    (∀ (drop : List String) (r : NameRow) (p : String) (name : String),
        name ∈ generateForPattern drop r p ↔
          ∃ c ∈ cartProd ((pySplit p).map (fun a => tokenValues r (trimStr a))),
            1 < (c.filter (fun d => d.length ≠ 0)).length ∧
            name = joinSpace (c.filter (fun d => d.length ≠ 0)) ∧
            name ∉ drop) ∧
    generateForPattern [] rowJohnDoe "Prefix LastName" = [] ∧
    generateForPattern [] rowJohnDoe "FirstName LastName" = ["john doe"] := by
  refine ⟨fun drop r p name => ?_, by decide, by decide⟩
  rw [generateForPattern, List.mem_filterMap]
  constructor
  · rintro ⟨c, hc, hf⟩
    by_cases h1 : 1 < (c.filter (fun d => d.length ≠ 0)).length
    · rw [if_pos h1] at hf
      by_cases h2 : joinSpace (c.filter (fun d => d.length ≠ 0)) ∉ drop
      · rw [if_pos h2] at hf
        injection hf with hf
        exact ⟨c, hc, h1, hf.symm, hf ▸ h2⟩
      · rw [if_neg h2] at hf
        exact Option.noConfusion hf
    · rw [if_neg h1] at hf
      exact Option.noConfusion hf
  · rintro ⟨c, hc, h1, hname, hdrop⟩
    refine ⟨c, hc, ?_⟩
    rw [if_pos h1]
    subst hname
    rw [if_pos hdrop]

/-- **C10.** `load_drop_patterns` returns one empty string per line that is
blank after stripping and lowercasing and nothing else — every non-blank
line is skipped by `if len(line): continue` — so no generated candidate
(all of which are non-empty) is ever drop-listed. -/
theorem C10_drop_patterns_rule :
    (∀ lines : List String,
        loadDropPatterns lines
          = (lines.filter
              (fun l => decide (toLowerStr (trimStr l) = ""))).map (fun _ => "")) ∧
    (∀ (lines : List String) (x : String), x ∈ loadDropPatterns lines → x = "") ∧
    (∀ (lines : List String) (name : String), name ≠ "" →
        name ∉ loadDropPatterns lines) := by
  have hchar : ∀ lines : List String,
      loadDropPatterns lines
        = (lines.filter
            (fun l => decide (toLowerStr (trimStr l) = ""))).map (fun _ => "") := by
    intro lines
    have h := loadDropPatterns_go lines []
    simpa [loadDropPatterns] using h
  have hmem : ∀ (lines : List String) (x : String),
      x ∈ loadDropPatterns lines → x = "" := by
    intro lines x hx
    rw [hchar lines] at hx
    obtain ⟨l, _, hl⟩ := List.mem_map.mp hx
    exact hl.symm
  exact ⟨hchar, hmem, fun lines name hne hmem' => hne (hmem lines name hmem')⟩

/-- **C10, witness.** -/
theorem C10_witness :
    (loadDropPatterns ["smith", "", "  ", "jones"]
        = (["smith", "", "  ", "jones"].filter
            (fun l => decide (toLowerStr (trimStr l) = ""))).map (fun _ => "")) ∧
    ("" ∈ loadDropPatterns ["smith", "", "  ", "jones"] ∧ "" = "") ∧
    ("x" ≠ "" ∧ "x" ∉ loadDropPatterns ["smith", "", "  ", "jones"]) :=
  ⟨C10_drop_patterns_rule.1 ["smith", "", "  ", "jones"],
    ⟨by decide, C10_drop_patterns_rule.2.1 ["smith", "", "  ", "jones"] "" (by decide)⟩,
    ⟨by decide, C10_drop_patterns_rule.2.2 ["smith", "", "  ", "jones"] "x" (by decide)⟩⟩

/-! ## The deduplication pass (`preprocess_names`, step3; identical in
`preprocess/preprocess.py`)

For each candidate index `i` in order, *only when `i` is not already
marked*, the inner loop scans every `j > i`; when
`distance(name_i, name_j) <= max_dist(name_i)` it marks both `i` and `j`
(different `uniqid`s) or only `j` (same `uniqid`). Afterwards the marked
indexes are deleted from the list in descending order. The `editlength`
configuration here is a plain list of lengths: the threshold is `k + 1`
for the last position `k` whose length is below the name's length. -/

/-- One candidate: its source row id and its generated search name. -/
structure Cand where
  uniqid : String
  name : String
deriving DecidableEq

/-- The `max_dist` loop: `for k, length in enumerate(editlength): if
len(name1) > length: max_dist = k + 1`. -/
def maxDistGo (name : String) : List Nat → Nat → Nat → Nat
  | [], _, acc => acc
  | l :: rest, k, acc =>
      maxDistGo name rest (k + 1) (if l < name.length then k + 1 else acc)

/-- Edit-distance threshold for a candidate name. -/
def maxDistFor (el : List Nat) (name : String) : Nat := maxDistGo name el 0 0

example : maxDistFor [0] "ab" = 1 := by decide
example : maxDistFor [10, 15] "john smith" = 0 := by decide
example : maxDistFor [10, 15] "jonathan smithson" = 2 := by decide

/-- Marking for one inner-loop pair `(i, p.1)`: both on a cross-id hit,
only `p.1` on a same-id hit. -/
def pairStep (el : List Nat) (i : Nat) (ci : Cand) (p : Nat × Cand)
    (dup : Finset ℕ) : Finset ℕ :=
  if lev ci.name p.2.name ≤ maxDistFor el ci.name then
    if ci.uniqid ≠ p.2.uniqid then insert i (insert p.1 dup) else insert p.1 dup
  else dup

/-- The inner loop over `j in range(i + 1, len(out))`. -/
def innerScan (el : List Nat) (i : Nat) (ci : Cand) (l : List (ℕ × Cand))
    (dup : Finset ℕ) : Finset ℕ :=
  l.foldl (fun d p => pairStep el i ci p d) dup

/-- One outer-loop iteration: the inner scan runs only when `i` is not
already marked. -/
def outerStep (el : List Nat) (out : List Cand) (dup : Finset ℕ)
    (p : ℕ × Cand) : Finset ℕ :=
  if p.1 ∈ dup then dup
  else innerScan el p.1 p.2 (out.enum.drop (p.1 + 1)) dup

/-- The duplicate-index set after the first `k` outer iterations. -/
def findDupUpTo (el : List Nat) (out : List Cand) (k : Nat) : Finset ℕ :=
  (out.enum.take k).foldl (outerStep el out) ∅

/-- The full duplicate-index set. -/
def findDup (el : List Nat) (out : List Cand) : Finset ℕ :=
  out.enum.foldl (outerStep el out) ∅

/-- `for i in sorted(dup, reverse=True): del out[i]`. -/
def removeDescending (out : List Cand) (dup : Finset ℕ) : List Cand :=
  ((dup.sort (· ≤ ·)).reverse).foldl (fun l i => l.eraseIdx i) out

/-- The whole deduplication pass. -/
def dedup (el : List Nat) (out : List Cand) : List Cand :=
  removeDescending out (findDup el out)

theorem pairStep_subset (el : List Nat) (i : Nat) (ci : Cand) (p : Nat × Cand)
    (dup : Finset ℕ) : dup ⊆ pairStep el i ci p dup := by
  unfold pairStep
  split_ifs with h1 h2
  · exact (Finset.subset_insert _ _).trans (Finset.subset_insert _ _)
  · exact Finset.subset_insert _ _
  · exact Finset.Subset.refl _

theorem innerScan_subset (el : List Nat) (i : Nat) (ci : Cand)
    (l : List (ℕ × Cand)) (dup : Finset ℕ) : dup ⊆ innerScan el i ci l dup := by
  induction l generalizing dup with
  | nil => exact Finset.Subset.refl _
  | cons q rest ih =>
      simp only [innerScan, List.foldl_cons] at *
      exact (pairStep_subset el i ci q dup).trans (ih _)

theorem innerScan_marks (el : List Nat) (i : Nat) (ci : Cand)
    (l : List (ℕ × Cand)) (dup : Finset ℕ) (j : ℕ) (cj : Cand)
    (hmem : (j, cj) ∈ l) (hd : lev ci.name cj.name ≤ maxDistFor el ci.name) :
    (ci.uniqid ≠ cj.uniqid →
      i ∈ innerScan el i ci l dup ∧ j ∈ innerScan el i ci l dup) ∧
    (ci.uniqid = cj.uniqid → j ∈ innerScan el i ci l dup) := by
  induction l generalizing dup with
  | nil => cases hmem
  | cons q rest ih =>
      rcases List.mem_cons.mp hmem with heq | hmem'
      · subst heq
        simp only [innerScan, List.foldl_cons]
        constructor
        · intro hne
          have h1 : i ∈ pairStep el i ci (j, cj) dup := by
            unfold pairStep
            rw [if_pos hd, if_pos hne]
            exact Finset.mem_insert_self _ _
          have h2 : j ∈ pairStep el i ci (j, cj) dup := by
            unfold pairStep
            rw [if_pos hd, if_pos hne]
            exact Finset.mem_insert_of_mem (Finset.mem_insert_self _ _)
          exact ⟨innerScan_subset el i ci rest _ h1, innerScan_subset el i ci rest _ h2⟩
        · intro heq'
          have h2 : j ∈ pairStep el i ci (j, cj) dup := by
            unfold pairStep
            rw [if_pos hd, if_neg (by simp [heq'])]
            exact Finset.mem_insert_self _ _
          exact innerScan_subset el i ci rest _ h2
      · simp only [innerScan, List.foldl_cons] at *
        exact ih _ hmem'

theorem findDupUpTo_succ (el : List Nat) (out : List Cand) (k : Nat) (ck : Cand)
    (hk : out.get? k = some ck) :
    findDupUpTo el out (k + 1)
      = outerStep el out (findDupUpTo el out k) (k, ck) := by
  unfold findDupUpTo
  rw [List.take_succ, List.foldl_append]
  have h1 : out.enum[k]? = some (k, ck) := by
    rw [List.getElem?_enum, ← List.get?_eq_getElem?, hk]
    rfl
  rw [h1]
  rfl

theorem outerStep_subset (el : List Nat) (out : List Cand) (dup : Finset ℕ)
    (p : ℕ × Cand) : dup ⊆ outerStep el out dup p := by
  unfold outerStep
  split_ifs with h
  · exact Finset.Subset.refl _
  · exact innerScan_subset _ _ _ _ _

theorem findDupUpTo_mono (el : List Nat) (out : List Cand) {k m : Nat}
    (h : k ≤ m) : findDupUpTo el out k ⊆ findDupUpTo el out m := by
  induction m with
  | zero =>
      cases Nat.le_zero.mp h
      exact Finset.Subset.refl _
  | succ m ih =>
      rcases Nat.lt_or_ge k (m + 1) with hk | hk
      · have hkm : k ≤ m := Nat.lt_succ_iff.mp hk
        refine (ih hkm).trans ?_
        rcases hm : out.get? m with _ | cm
        · have hlen : out.length ≤ m := by
            by_contra hc
            rw [List.get?_eq_getElem?, List.getElem?_eq_getElem (Nat.lt_of_not_le hc)] at hm
            exact Option.noConfusion hm
          unfold findDupUpTo
          rw [List.take_of_length_le (by simpa using hlen),
            List.take_of_length_le (by simpa using Nat.le_succ_of_le hlen)]
        · rw [findDupUpTo_succ el out m cm hm]
          exact outerStep_subset _ _ _ _
      · have : m + 1 ≤ k := hk
        have heq : k = m + 1 := Nat.le_antisymm h this
        subst heq
        exact Finset.Subset.refl _

theorem findDup_eq_upTo (el : List Nat) (out : List Cand) :
    findDup el out = findDupUpTo el out out.length := by
  unfold findDup findDupUpTo
  rw [show out.length = out.enum.length by rw [List.enum_length],
    List.take_length]

theorem findDup_marks (el : List Nat) (out : List Cand) (i j : Nat)
    (ci cj : Cand) (hij : i < j) (hi : out.get? i = some ci)
    (hj : out.get? j = some cj) (hnot : i ∉ findDupUpTo el out i)
    (hd : lev ci.name cj.name ≤ maxDistFor el ci.name) :
    (ci.uniqid ≠ cj.uniqid → i ∈ findDup el out ∧ j ∈ findDup el out) ∧
    (ci.uniqid = cj.uniqid → j ∈ findDup el out) := by
  have hjlt : j < out.length := by
    by_contra hc
    rw [List.get?_eq_getElem?, List.getElem?_eq_none (Nat.le_of_not_lt hc)] at hj
    exact Option.noConfusion hj
  have hmem : (j, cj) ∈ out.enum.drop (i + 1) := by
    have h1 : (out.enum.drop (i + 1)).get? (j - (i + 1)) = some (j, cj) := by
      rw [List.get?_eq_getElem?, List.getElem?_drop]
      have harith : i + 1 + (j - (i + 1)) = j := by omega
      rw [harith, List.getElem?_enum, ← List.get?_eq_getElem?, hj]
      rfl
    exact List.get?_mem h1
  have hinner := innerScan_marks el i ci (out.enum.drop (i + 1))
    (findDupUpTo el out i) j cj hmem hd
  have hstep : findDupUpTo el out (i + 1)
      = innerScan el i ci (out.enum.drop (i + 1)) (findDupUpTo el out i) := by
    rw [findDupUpTo_succ el out i ci hi]
    unfold outerStep
    rw [if_neg hnot]
  have hle : findDupUpTo el out (i + 1) ⊆ findDup el out := by
    rw [findDup_eq_upTo]
    exact findDupUpTo_mono el out (by omega)
  constructor
  · intro hne
    obtain ⟨h1, h2⟩ := hinner.1 hne
    exact ⟨hle (hstep.symm ▸ h1), hle (hstep.symm ▸ h2)⟩
  · intro heq
    exact hle (hstep.symm ▸ hinner.2 heq)

theorem innerScan_lt (el : List Nat) (i : Nat) (ci : Cand) (n : Nat)
    (l : List (ℕ × Cand)) (dup : Finset ℕ) (hdup : ∀ x ∈ dup, x < n)
    (hl : ∀ p ∈ l, p.1 < n) (hi : i < n) :
    ∀ x ∈ innerScan el i ci l dup, x < n := by
  induction l generalizing dup with
  | nil => exact hdup
  | cons q rest ih =>
      simp only [innerScan, List.foldl_cons]
      refine ih _ ?_ (fun p hp => hl p (List.mem_cons_of_mem q hp))
      intro x hx
      unfold pairStep at hx
      split_ifs at hx with h1 h2
      · rcases Finset.mem_insert.mp hx with rfl | hx'
        · exact hi
        · rcases Finset.mem_insert.mp hx' with rfl | hx''
          · exact hl q (List.mem_cons_self q rest)
          · exact hdup x hx''
      · rcases Finset.mem_insert.mp hx with rfl | hx'
        · exact hl q (List.mem_cons_self q rest)
        · exact hdup x hx'
      · exact hdup x hx

theorem findDup_lt (el : List Nat) (out : List Cand) :
    ∀ x ∈ findDup el out, x < out.length := by
  unfold findDup
  have hgen : ∀ (l : List (ℕ × Cand)) (dup : Finset ℕ),
      (∀ x ∈ dup, x < out.length) → (∀ p ∈ l, p.1 < out.length) →
      ∀ x ∈ l.foldl (outerStep el out) dup, x < out.length := by
    intro l
    induction l with
    | nil => intro dup hdup _; exact hdup
    | cons q rest ih =>
        intro dup hdup hl
        rw [List.foldl_cons]
        refine ih _ ?_ (fun p hp => hl p (List.mem_cons_of_mem q hp))
        unfold outerStep
        split_ifs with hq
        · exact hdup
        · refine innerScan_lt el q.1 q.2 out.length _ dup hdup ?_
            (hl q (List.mem_cons_self q rest))
          intro p hp
          have hp' : p ∈ out.enum := List.mem_of_mem_drop hp
          obtain ⟨p1, p2⟩ := p
          have := List.mem_enumFrom hp'
          simpa using this.2.1
  refine hgen out.enum ∅ (by simp) ?_
  intro p hp
  obtain ⟨p1, p2⟩ := p
  have := List.mem_enumFrom hp
  simpa using this.2.1

theorem eraseFold (ds : List ℕ) (out : List Cand)
    (hsort : ds.Sorted (· > ·)) (hlt : ∀ d ∈ ds, d < out.length) :
    ds.foldl (fun l i => l.eraseIdx i) out
      = (out.enum.filter (fun p => decide (p.1 ∉ ds))).map Prod.snd := by
  induction ds generalizing out with
  | nil =>
      simp [List.enum_map_snd]
  | cons d rest ih =>
      rw [List.foldl_cons]
      have hd : d < out.length := hlt d (List.mem_cons_self _ _)
      have hhead : ∀ e ∈ rest, e < d := (List.pairwise_cons.mp hsort).1
      have hlt' : ∀ e ∈ rest, e < (out.eraseIdx d).length := by
        intro e he
        rw [List.length_eraseIdx, if_pos hd]
        have := hhead e he
        omega
      rw [ih (out.eraseIdx d) (List.pairwise_cons.mp hsort).2 hlt']
      have htlen : (out.take d).length = d := by
        rw [List.length_take]
        omega
      -- left side: eraseIdx decomposition
      rw [List.eraseIdx_eq_take_drop_succ, List.enum_append, htlen]
      -- right side: take/getElem/drop decomposition of `out`
      conv_rhs =>
        rw [← List.take_append_drop d out, List.enum_append, htlen,
          List.drop_eq_getElem_cons hd, List.enumFrom_cons]
      rw [List.filter_append, List.filter_append, List.map_append, List.map_append]
      have hseg1 : ((out.take d).enum.filter (fun p => decide (p.1 ∉ rest)))
          = ((out.take d).enum.filter (fun p => decide (p.1 ∉ d :: rest))) := by
        refine List.filter_congr ?_
        rintro ⟨p1, p2⟩ hp
        have hp1 : p1 < d := by
          have := List.mem_enumFrom hp
          simpa [htlen] using this.2.1
        have : (p1 ∉ rest) ↔ (p1 ∉ d :: rest) := by
          simp only [List.mem_cons]
          constructor
          · intro h hc
            rcases hc with rfl | hc
            · omega
            · exact h hc
          · intro h hc
            exact h (Or.inr hc)
        exact decide_eq_decide.mpr this
      have hseg2 : ((out.drop (d + 1)).enumFrom d).filter
            (fun p => decide (p.1 ∉ rest))
          = (out.drop (d + 1)).enumFrom d := by
        rw [List.filter_eq_self]
        rintro ⟨p1, p2⟩ hp
        have hge : d ≤ p1 := (List.mem_enumFrom hp).1
        have : p1 ∉ rest := fun hc => by
          have := hhead p1 hc
          omega
        simpa using this
      have hseg3 : ((out.drop (d + 1)).enumFrom (d + 1)).filter
            (fun p => decide (p.1 ∉ d :: rest))
          = (out.drop (d + 1)).enumFrom (d + 1) := by
        rw [List.filter_eq_self]
        rintro ⟨p1, p2⟩ hp
        have hge : d + 1 ≤ p1 := (List.mem_enumFrom hp).1
        have : p1 ∉ d :: rest := by
          simp only [List.mem_cons]
          rintro (rfl | hc)
          · omega
          · have := hhead p1 hc
            omega
        simpa using this
      rw [hseg1, hseg2,
        List.filter_cons_of_neg (by simp),
        hseg3, List.enumFrom_map_snd, List.enumFrom_map_snd]

theorem dedup_eq_filter (el : List Nat) (out : List Cand) :
    dedup el out
      = (out.enum.filter (fun p => decide (p.1 ∉ findDup el out))).map Prod.snd := by
  unfold dedup removeDescending
  have hsort : (((findDup el out).sort (· ≤ ·)).reverse).Sorted (· > ·) := by
    rw [List.Sorted, List.pairwise_reverse]
    simpa using Finset.sort_sorted_lt (findDup el out)
  have hlt : ∀ d ∈ ((findDup el out).sort (· ≤ ·)).reverse, d < out.length := by
    intro d hd1
    rw [List.mem_reverse, Finset.mem_sort] at hd1
    exact findDup_lt el out d hd1
  rw [eraseFold _ out hsort hlt]
  congr 1
  refine List.filter_congr ?_
  intro p _
  refine decide_eq_decide.mpr ?_
  rw [List.mem_reverse, Finset.mem_sort]

/-- **C5, counterexample.** The claim quantifies over *every* pair `(i, j)`
with `i < j` within threshold. But the code runs the inner scan for `i`
only when `i` is not already marked: with `editlength = [0]` and
candidates `("1","ab"), ("2","ac"), ("3","dc")`, the pair `(0, 1)` marks
both `0` and `1`; the pair `(1, 2)` is within threshold
(`distance("ac","dc") = 1 ≤ 1`) with different ids, so the claim demands
`2` be marked — yet the scan for `i = 1` is skipped and `2` stays
unmarked. -/
theorem C5_counterexample :
    ([Cand.mk "1" "ab", Cand.mk "2" "ac", Cand.mk "3" "dc"].get? 1
        = some (Cand.mk "2" "ac")) ∧
    ([Cand.mk "1" "ab", Cand.mk "2" "ac", Cand.mk "3" "dc"].get? 2
        = some (Cand.mk "3" "dc")) ∧
    lev "ac" "dc" ≤ maxDistFor [0] "ac" ∧
    ("2" : String) ≠ "3" ∧
    (2 : ℕ) ∉ findDup [0] [Cand.mk "1" "ab", Cand.mk "2" "ac", Cand.mk "3" "dc"] := by
  refine ⟨by decide, by decide, by decide, by decide, by decide⟩

/-- **C5, amended.** For every pair `(i, j)`, `i < j`, such that `i` is
still unmarked when its outer iteration begins and
`distance(name_i, name_j)` is within the threshold computed from candidate
`i`'s length alone: differing source row ids mark both `i` and `j`, equal
ids mark only `j`; pairs whose first index is already marked are skipped
entirely. After all pairs are evaluated the marked indexes are removed in
descending order, which keeps exactly the unmarked candidates in their
original order. -/
theorem C5_dedup_rule :
    (∀ (el : List Nat) (out : List Cand) (i j : Nat) (ci cj : Cand),
        i < j → out.get? i = some ci → out.get? j = some cj →
        i ∉ findDupUpTo el out i →
        lev ci.name cj.name ≤ maxDistFor el ci.name →
        ((ci.uniqid ≠ cj.uniqid → i ∈ findDup el out ∧ j ∈ findDup el out) ∧
         (ci.uniqid = cj.uniqid → j ∈ findDup el out))) ∧
    (∀ (el : List Nat) (out : List Cand),
        dedup el out
          = (out.enum.filter (fun p => decide (p.1 ∉ findDup el out))).map
              Prod.snd) :=
  ⟨findDup_marks, dedup_eq_filter⟩

/-- **C5, witness.** -/
theorem C5_witness :
    (((0 : Nat) < 1 ∧
        [Cand.mk "1" "john smith", Cand.mk "1" "jon smith"].get? 0
          = some (Cand.mk "1" "john smith") ∧
        [Cand.mk "1" "john smith", Cand.mk "1" "jon smith"].get? 1
          = some (Cand.mk "1" "jon smith") ∧
        (0 : ℕ) ∉ findDupUpTo [0] [Cand.mk "1" "john smith", Cand.mk "1" "jon smith"] 0 ∧
        lev "john smith" "jon smith" ≤ maxDistFor [0] "john smith") ∧
      (1 : ℕ) ∈ findDup [0] [Cand.mk "1" "john smith", Cand.mk "1" "jon smith"]) :=
  ⟨⟨by decide, by decide, by decide, by decide, by decide⟩,
    (C5_dedup_rule.1 [0] [Cand.mk "1" "john smith", Cand.mk "1" "jon smith"] 0 1
        (Cand.mk "1" "john smith") (Cand.mk "1" "jon smith")
        (by decide) (by decide) (by decide) (by decide) (by decide)).2 rfl⟩

/-! ## Work distribution

`OptimizedSearchProcessor._create_file_chunks` streams the corpus rows,
skips a row when its text cell is absent or blank after stripping, appends
eligible rows to the current chunk, and closes a chunk once `chunk_size`
rows are collected; a trailing partial chunk is closed with the last seen
line number. The legacy `worker` of `search_names.py` instead assigns row
`i` to worker `pid` iff `i % processes == pid`. -/

/-- Row eligibility: the text cell exists and strips to a non-empty
string. -/
def isEligible : Option String → Bool
  | none => false
  | some s => decide (trimStr s ≠ "")

/-- The scan loop of `_create_file_chunks`, carrying the collected chunks,
the current chunk data and the current chunk's start line. -/
def chunkLoop (chunkSize : Nat) :
    List (Nat × Option String) →
    List (Nat × Nat × List (Nat × Option String)) →
    List (Nat × Option String) → Nat →
    List (Nat × Nat × List (Nat × Option String)) ×
      List (Nat × Option String) × Nat
  | [], chunks, data, start => (chunks, data, start)
  | (ln, row) :: rest, chunks, data, start =>
      if isEligible row then
        if chunkSize ≤ (data ++ [(ln, row)]).length then
          chunkLoop chunkSize rest (chunks ++ [(start, ln, data ++ [(ln, row)])])
            [] (ln + 1)
        else chunkLoop chunkSize rest chunks (data ++ [(ln, row)]) start
      else chunkLoop chunkSize rest chunks data start

/-- `_create_file_chunks`: the scan plus the trailing partial chunk (closed
with the loop's final `line_num`). -/
def createFileChunks (rows : List (Option String)) (chunkSize : Nat) :
    List (Nat × Nat × List (Nat × Option String)) :=
  let r := chunkLoop chunkSize rows.enum [] [] 0
  if r.2.1.isEmpty then r.1 else r.1 ++ [(r.2.2, rows.length - 1, r.2.1)]

/-- Row-to-worker assignment of the legacy `worker`:
`(i % args.processes) != pid: continue`. -/
def workerTakes (procs pid i : Nat) : Bool := i % procs == pid

theorem chunkLoop_inv (chunkSize : Nat) (l : List (Nat × Option String))
    (chunks : List (Nat × Nat × List (Nat × Option String)))
    (data : List (Nat × Option String)) (start : Nat) :
    ((chunkLoop chunkSize l chunks data start).1.map (fun c => c.2.2)).flatten
        ++ (chunkLoop chunkSize l chunks data start).2.1
      = (chunks.map (fun c => c.2.2)).flatten ++ data
          ++ l.filter (fun p => isEligible p.2) := by
  induction l generalizing chunks data start with
  | nil => simp [chunkLoop]
  | cons p rest ih =>
      obtain ⟨ln, row⟩ := p
      rw [chunkLoop, List.filter_cons]
      by_cases he : (isEligible row : Prop)
      · rw [if_pos he, he]
        by_cases hfull : chunkSize ≤ (data ++ [(ln, row)]).length
        · rw [if_pos hfull, ih]
          simp
        · rw [if_neg hfull, ih]
          simp
      · have he' : isEligible row = false := by
          simpa using he
        rw [if_neg (by simp [he']), he']
        rw [ih]
        simp

theorem createFileChunks_flatten (rows : List (Option String)) (chunkSize : Nat) :
    ((createFileChunks rows chunkSize).map (fun c => c.2.2)).flatten
      = rows.enum.filter (fun p => isEligible p.2) := by
  have h := chunkLoop_inv chunkSize rows.enum [] [] 0
  simp only [List.map_nil, List.flatten_nil, List.nil_append] at h
  unfold createFileChunks
  by_cases hemp : ((chunkLoop chunkSize rows.enum [] [] 0).2.1).isEmpty = true
  · rw [if_pos hemp]
    rw [List.isEmpty_iff] at hemp
    rw [hemp, List.append_nil] at h
    exact h
  · rw [if_neg hemp]
    rw [List.map_append, List.flatten_append]
    simpa using h

/-- **C8.** The chunk scheduler partitions the corpus: concatenating the
chunks' row lists yields exactly the eligible rows (text present and
non-blank) with their line numbers, in order — so each eligible row lands
in exactly one chunk, ineligible rows land in none, and the chunk sizes
sum to the eligible-row count, for every chunk size. Independently, the
legacy modulo distribution gives each row index exactly one worker. -/
theorem C8_chunking_partition :
    (∀ (rows : List (Option String)) (chunkSize : Nat),
        ((createFileChunks rows chunkSize).map (fun c => c.2.2)).flatten
          = rows.enum.filter (fun p => isEligible p.2)) ∧
    (∀ (rows : List (Option String)) (chunkSize : Nat),
        ((createFileChunks rows chunkSize).map (fun c => c.2.2.length)).sum
          = (rows.enum.filter (fun p => isEligible p.2)).length) ∧
    (∀ procs i : Nat, 0 < procs →
        ∃! pid, pid < procs ∧ workerTakes procs pid i = true) := by
  refine ⟨createFileChunks_flatten, fun rows chunkSize => ?_, fun procs i h => ?_⟩
  · rw [← createFileChunks_flatten rows chunkSize, List.length_flatten,
      List.map_map]
    rfl
  · refine ⟨i % procs, ⟨Nat.mod_lt i h, by simp [workerTakes]⟩, ?_⟩
    intro y hy
    have h2 : i % procs = y := by simpa [workerTakes] using hy.2
    exact h2.symm

/-- **C8, witness.** -/
theorem C8_witness :
    (((createFileChunks [some "a", none, some "  ", some "b", some "c"] 2).map
          (fun c => c.2.2)).flatten
        = ([some "a", none, some "  ", some "b", some "c"] :
            List (Option String)).enum.filter (fun p => isEligible p.2)) ∧
    ((0 : Nat) < 2 ∧ ∃! pid, pid < 2 ∧ workerTakes 2 pid 5 = true) :=
  ⟨C8_chunking_partition.1 [some "a", none, some "  ", some "b", some "c"] 2,
    ⟨by decide, C8_chunking_partition.2.2 2 5 (by decide)⟩⟩

end SearchNames
